import Mathlib

/-!
Verification development for the EARL repository (evolutionary actor-critic).

Shallow embedding of `src/earl/model.py` (the population network's parameter,
gradient marshalling protocol and action sampling) and `src/earl/runner.py`
(the hybrid update coordinator's generation loop and the ensemble evaluator).

Modelling conventions:
* A torch tensor is a shape together with a flattened rational payload;
  "bit-for-bit" equality of tensor values is equality of the payload.
* Python exceptions (`IndexError`, `RuntimeError` from `load_state_dict`,
  `AttributeError`, `UnboundLocalError`) are modelled with `Except String`.
* Transcendental functions (the `exp` inside softmax) are a parameter of the
  embedding: softmax is faithful up to the choice of the exponential map.
* Categorical sampling (`torch.distributions.Categorical.sample`) is modelled
  by inverse-CDF selection applied to an externally supplied uniform draw.
* The gym environment, storage, EA and logger collaborators are external; the
  timestep counts of episodes and the mean test fitness of an evaluation are
  supplied by an oracle, and external constructors are modelled as succeeding.
-/

namespace EARL

/-- A torch tensor: shape plus flattened payload of exact rational values. -/
structure Tensor where
  shape : List Nat
  data : List Rat
deriving DecidableEq, Repr

/-- Python exception text used to model `IndexError: list index out of range`. -/
def indexErr : String := "IndexError: list index out of range"

/-- Python exception text used to model the size-mismatch `RuntimeError` that
`torch.nn.Module.load_state_dict` raises for a wrongly shaped value. -/
def sizeErr : String := "RuntimeError: size mismatch in load_state_dict"

/-- Python exception text used to model the missing/unexpected-key `RuntimeError`
of `torch.nn.Module.load_state_dict`. -/
def keyErr : String := "RuntimeError: key mismatch in load_state_dict"

/-- Python exception text for reading `.detach()` off an absent gradient
(`parameter.grad` is `None`). -/
def gradAttrErr : String := "AttributeError: NoneType object has no attribute detach"

/-- One trainable parameter of a torch layer: its registered name, current
value and the gradient slot (`None` until a backward pass touches it). -/
structure Param where
  name : String
  value : Tensor
  grad : Option Tensor
deriving DecidableEq, Repr

/-- A torch layer as the marshalling protocol sees it: the ordered list of its
named trainable parameters (`named_parameters()` order). -/
structure TorchLayer where
  params : List Param
deriving DecidableEq, Repr

/-- State of `EvoACModel` (model.py, `_init_model_layers`): one shared trunk,
`pop_size` independent policy heads, one shared value block. -/
structure EvoACModel where
  sharedNet : List TorchLayer
  policyNets : List (List TorchLayer)
  valueNet : List TorchLayer
deriving DecidableEq, Repr

/-- All parameters of one individual's head, flattened across its layers in
declaration order (the order the `for layer in individual: for name, parameter
in layer.named_parameters()` loops of model.py traverse). -/
def flatParams (ind : List TorchLayer) : List Param :=
  ind.flatMap (fun l => l.params)

/-- The flattened value tensors of one individual's head, in traversal order. -/
def layerVals (ind : List TorchLayer) : List Tensor :=
  ind.flatMap (fun l => l.params.map (fun p => p.value))

/-- Embedding of `EvoACModel.extract_params` (model.py lines 57-71): per individual, one
flat list of detached copies of that head's parameter values, appended across
layers in declaration order. -/
def EvoACModel.extract_params (m : EvoACModel) : List (List Tensor) :=
  m.policyNets.map layerVals

/-- The read `incoming_params[popIdx][paramsIdx]` performed by
`insert_params`; `none` models the `IndexError` of an out-of-range index. -/
def readAt (incoming : List (List Tensor)) (popIdx paramsIdx : Nat) : Option Tensor :=
  match incoming[popIdx]? with
  | none => none
  | some ind => ind[paramsIdx]?

/-- The `state_dict[name] = incoming_params[pop_idx][params_idx]` loop of
`insert_params` for one layer: collect the incoming tensors for the layer's
parameters, threading the flat `params_idx` counter; an out-of-range read is
an `IndexError`. -/
def stateAssign (incoming : List (List Tensor)) (popIdx : Nat) :
    Nat → List Param → Except String (List Tensor × Nat)
  | paramsIdx, [] => .ok ([], paramsIdx)
  | paramsIdx, _p :: ps =>
    match readAt incoming popIdx paramsIdx with
    | none => .error indexErr
    | some t =>
      match stateAssign incoming popIdx (paramsIdx + 1) ps with
      | .error e => .error e
      | .ok (ts, idx') => .ok (t :: ts, idx')

/-- Embedding of `layer.load_state_dict(state_dict)`: overwrite each parameter's value with
the staged tensor; a shape mismatch raises (torch checks sizes strictly), and
only values are overwritten, never the parameter objects. -/
def load_state_dict : List Param → List Tensor → Except String (List Param)
  | [], [] => .ok []
  | p :: ps, t :: ts =>
    if t.shape = p.value.shape then
      match load_state_dict ps ts with
      | .error e => .error e
      | .ok ps' => .ok ({ p with value := t } :: ps')
    else .error sizeErr
  | _, _ => .error keyErr

/-- The per-individual body of `insert_params`: walk the head's layers,
staging then loading each layer's state dict, threading `params_idx`. -/
def insertIndividual (incoming : List (List Tensor)) (popIdx : Nat) :
    Nat → List TorchLayer → Except String (List TorchLayer)
  | _, [] => .ok []
  | paramsIdx, l :: ls =>
    match stateAssign incoming popIdx paramsIdx l.params with
    | .error e => .error e
    | .ok (vals, idx') =>
      match load_state_dict l.params vals with
      | .error e => .error e
      | .ok ps' =>
        match insertIndividual incoming popIdx idx' ls with
        | .error e => .error e
        | .ok ls' => .ok ({ l with params := ps' } :: ls')

/-- The `for pop_idx in range(len(self.policy_nets))` loop of `insert_params`:
each individual restarts `params_idx` at 0. -/
def insertPop (incoming : List (List Tensor)) :
    Nat → List (List TorchLayer) → Except String (List (List TorchLayer))
  | _, [] => .ok []
  | popIdx, ind :: inds =>
    match insertIndividual incoming popIdx 0 ind with
    | .error e => .error e
    | .ok ind' =>
      match insertPop incoming (popIdx + 1) inds with
      | .error e => .error e
      | .ok inds' => .ok (ind' :: inds')

/-- Embedding of `EvoACModel.insert_params` (model.py lines 74-90). -/
def EvoACModel.insert_params (m : EvoACModel) (incoming : List (List Tensor)) :
    Except String EvoACModel :=
  match insertPop incoming 0 m.policyNets with
  | .error e => .error e
  | .ok nets => .ok { m with policyNets := nets }

/-- The [individual][layer][parameter-tensor] nesting that the specification
describes for the ParameterBundle (spec section 3); stated here only to be
compared with the layout `extract_params` actually produces. -/
def extract_params_nested (m : EvoACModel) : List (List (List Tensor)) :=
  m.policyNets.map (fun ind => ind.map (fun l => l.params.map (fun p => p.value)))

/-- The shape skeleton of a bundle: tensor shapes at every position. -/
def bundleShape (b : List (List Tensor)) : List (List (List Nat)) :=
  b.map (fun ind => ind.map (fun t => t.shape))

/-- A bundle mirrors extraction's layout when it has the same number of
individuals, the same number of entries per individual, and the same tensor
shape at every position as `extract_params` would produce. -/
def mirrorsLayout (m : EvoACModel) (b : List (List Tensor)) : Prop :=
  bundleShape b = bundleShape m.extract_params

/-- Registered parameter name used by concrete example layers. -/
def wName : String := "weight"

/-- Registered parameter name used by concrete example layers. -/
def bName : String := "bias"

/-- Example tensor of shape [2]. -/
def tA : Tensor := ⟨[2], [1, 0]⟩

/-- Example tensor of shape [2, 2]. -/
def tB : Tensor := ⟨[2, 2], [1, 0, 0, 1]⟩

/-- Example tensor of shape [1]. -/
def tC : Tensor := ⟨[1], [5]⟩

/-- Concrete population network with one individual whose head has two
layers: the first layer holds two parameters (weight and bias), the second
holds one. -/
def mTwoLayer : EvoACModel :=
  ⟨[], [[⟨[⟨wName, tB, none⟩, ⟨bName, tA, none⟩]⟩, ⟨[⟨wName, tC, none⟩]⟩]], []⟩

/-- Concrete population network with one individual, one head layer and one
parameter of shape [2]. -/
def mOneParam : EvoACModel :=
  ⟨[], [[⟨[⟨wName, tA, none⟩]⟩]], []⟩

/-- The `parameter.grad.detach()` loop of `extract_grads` over one layer's
parameters: an absent gradient (grad is None) raises an AttributeError rather
than yielding a defaulted tensor. -/
def gradsOf : List Param → Except String (List Tensor)
  | [] => .ok []
  | p :: ps =>
    match p.grad with
    | none => .error gradAttrErr
    | some g =>
      match gradsOf ps with
      | .error e => .error e
      | .ok gs => .ok (g :: gs)

/-- Per-individual loop of `extract_grads`: gradients appended across the
head's layers in declaration order, like `extract_params`. -/
def individualGrads : List TorchLayer → Except String (List Tensor)
  | [] => .ok []
  | l :: ls =>
    match gradsOf l.params with
    | .error e => .error e
    | .ok gs =>
      match individualGrads ls with
      | .error e => .error e
      | .ok rest => .ok (gs ++ rest)

/-- Population loop of `extract_grads`. -/
def popGrads : List (List TorchLayer) → Except String (List (List Tensor))
  | [] => .ok []
  | ind :: inds =>
    match individualGrads ind with
    | .error e => .error e
    | .ok gs =>
      match popGrads inds with
      | .error e => .error e
      | .ok rest => .ok (gs :: rest)

/-- Embedding of `EvoACModel.extract_grads` (model.py lines 93-107): the same traversal as
`extract_params`, reading `.grad` off each head parameter. -/
def EvoACModel.extract_grads (m : EvoACModel) : Except String (List (List Tensor)) :=
  popGrads m.policyNets

/-- All head parameters of the population, in traversal order. -/
def headParams (m : EvoACModel) : List Param :=
  m.policyNets.flatMap flatParams

/-- Concrete population network with one individual, one head layer and one
parameter whose gradient slot is filled (shape matching its value). -/
def mWithGrad : EvoACModel :=
  ⟨[], [[⟨[⟨wName, tA, some tA⟩]⟩]], []⟩

/-- Embedding of `np.argmax`: index of the first occurrence of the maximum (0 for the
empty list, which numpy instead rejects; all uses here are nonempty). -/
def npArgmax : List Rat → Nat
  | [] => 0
  | x :: xs => if ∀ y ∈ xs, y ≤ x then 0 else npArgmax xs + 1

/-- Softmax (`F.softmax` at model.py line 161, `scipy.special.softmax` at
runner.py line 176) with the transcendental exponential abstracted as the
parameter `e`: weights `e x` normalized by their sum. -/
def softmaxE (e : Rat → Rat) (xs : List Rat) : List Rat :=
  (xs.map e).map (fun v => v / (xs.map e).sum)

/-- Inverse-CDF categorical sampling: the sample of
`torch.distributions.Categorical` (or `np.random.choice`) as a function of
the probability vector and one uniform draw `u`. -/
def catSample : List Rat → Rat → Nat
  | [], _ => 0
  | p :: ps, u => if u < p then 0 else catSample ps (u - p) + 1

/-- Embedding of `EvoACModel.get_action` (model.py lines 143-165) at the policy-logits
level: softmax the logits into a categorical distribution and draw one
stochastic sample from it. -/
def get_action_sample (e : Rat → Rat) (logits : List Rat) (u : Rat) : Nat :=
  catSample (softmaxE e logits) u

/-- The weightedvote per-individual action query (runner.py line 181): every
individual's action is obtained from `get_action`, i.e. sampled. -/
def wvProposedActions (e : Rat → Rat) (logitsPerInd : List (List Rat))
    (us : List Rat) : List Nat :=
  List.zipWith (fun lg u => get_action_sample e lg u) logitsPerInd us

/-- The vote accumulation of the weightedvote branch (runner.py lines
182-184): `action_votes[mod_action] += weight` over `zip(actions, fitnesses)`
starting from `[0] * action_space.n`. -/
def voteTotals (n : Nat) (actions : List Nat) (fits : List Rat) : List Rat :=
  (actions.zip fits).foldl
    (fun votes af => votes.set af.1 (votes.getD af.1 0 + af.2))
    (List.replicate n 0)

/-- The full weightedvote selection (runner.py lines 180-185):
`np.argmax(action_votes)`. -/
def weightedVoteAction (n : Nat) (actions : List Nat) (fits : List Rat) : Nat :=
  npArgmax (voteTotals n actions fits)

/-- Test-strategy identifier accepted by `_get_test_action`. -/
def bestStrat : String := "best"

/-- Test-strategy identifier accepted by `_get_test_action`. -/
def softmaxStrat : String := "softmax"

/-- Test-strategy identifier accepted by `_get_test_action`. -/
def weightedVoteStrat : String := "weightedvote"

/-- Python exception text for returning the unassigned local `action` when no
branch of the if/elif chain of `_get_test_action` matched. -/
def unboundLocalErr : String :=
  "UnboundLocalError: local variable action referenced before assignment"

/-- Embedding of `EvoACRunner._get_test_action` (runner.py lines 159-186): dispatch on the
configured test strategy; per-individual policy logits at the current
observation and the uniform draws consumed by sampling are inputs. An
unrecognized strategy falls through the if/elif chain, so the `return action`
raises an unbound-local error — there is no validation anywhere earlier. -/
def getTestAction (e : Rat → Rat) (strat : String) (numActions : Nat)
    (fitnesses : List Rat) (logitsPerInd : List (List Rat)) (us : List Rat)
    (uChoice : Rat) : Except String Nat :=
  if strat = bestStrat then
    .ok (get_action_sample e (logitsPerInd.getD (npArgmax fitnesses) [])
      (us.getD (npArgmax fitnesses) 0))
  else if strat = softmaxStrat then
    .ok (get_action_sample e
      (logitsPerInd.getD (catSample (softmaxE e fitnesses) uChoice) [])
      (us.getD (catSample (softmaxE e fitnesses) uChoice) 0))
  else if strat = weightedVoteStrat then
    .ok (weightedVoteAction numActions (wvProposedActions e logitsPerInd us) fitnesses)
  else .error unboundLocalErr

/-- Environment identifier with a hard-coded stop fitness (runner.py line 24). -/
def cartPoleId : String := "CartPole-v1"

/-- Environment identifier with a hard-coded stop fitness (runner.py line 26). -/
def lunarLanderId : String := "LunarLander-v2"

/-- Python exception text for reading the never-assigned `stop_fit` attribute
at the comparison of runner.py line 64. -/
def attrErr : String := "AttributeError: EvoACRunner object has no attribute stop_fit"

/-- The experiment section of the configuration consumed by the runner. -/
structure ExpConfig where
  env : String
  numRuns : Nat
  timesteps : Nat
  logInterval : Nat
  printInterval : Nat
  testStrat : String
deriving DecidableEq, Repr

/-- The earl section entries consumed by the runner's loop. -/
structure EvoConfig where
  popSize : Nat
deriving DecidableEq, Repr

/-- The experiment configuration as the runner reads it. -/
structure Config where
  evo : EvoConfig
  exp : ExpConfig
deriving DecidableEq, Repr

/-- Runner.__init__ lines 24-27: `stop_fit` is assigned only for the two
recognized environment identifiers; for every other identifier the attribute
is never set, modelled as `none`. -/
def initStopFit (env : String) : Option Rat :=
  if env = cartPoleId then some 475
  else if env = lunarLanderId then some 200
  else none

/-- Runner state established by `__init__`. -/
structure Runner where
  config : Config
  stopFit : Option Rat
deriving DecidableEq, Repr

/-- Embedding of `EvoACRunner.__init__` (runner.py lines 18-33): records the configuration
and conditionally the stop fitness. The two gym environments and the logger
are external collaborators modelled as constructing successfully; `__init__`
itself performs no validation of the environment identifier and never reads
the test-strategy identifier. -/
def runnerInit (config : Config) : Except String Runner :=
  .ok { config := config, stopFit := initStopFit config.exp.env }

/-- Events of one generation of the training loop, in execution order. -/
inductive Ev
  | runEpisode (popIdx : Nat)
  | updateEvoAC
  | evalTest (fit : Rat)
  | logFit
  | printData
  | insertParams
deriving DecidableEq, Repr

/-- How one generation of the loop ends. -/
inductive GenExit
  | fitnessStop
  | budgetStop
  | cont
deriving DecidableEq, Repr

/-- The per-generation configuration the loop body reads. -/
structure GenConfig where
  popSize : Nat
  logInterval : Nat
  budget : Nat
  printInterval : Nat
  stopFit : Option Rat
deriving DecidableEq, Repr

/-- The generation configuration derived from a runner. -/
def runnerGenConfig (r : Runner) : GenConfig :=
  ⟨r.config.evo.popSize, r.config.exp.logInterval, r.config.exp.timesteps,
    r.config.exp.printInterval, r.stopFit⟩

/-- Timesteps added by one generation's episodes: `stepsOf i` is the number
of environment steps of the episode run by individual i (an oracle for the
external environment; runner.py lines 85-97 increment the counter once per
step). -/
def stepSum (popSize : Nat) (stepsOf : Nat → Nat) : Nat :=
  ((List.range popSize).map stepsOf).sum

/-- The evaluation trigger of runner.py line 53: log interval elapsed since
the last log, or total timestep budget exceeded. -/
def evalCond (cfg : GenConfig) (ts' : Nat) (lastLog : Int) : Prop :=
  (ts' : Int) - lastLog ≥ (cfg.logInterval : Int) ∨ ts' > cfg.budget

instance (cfg : GenConfig) (ts' : Nat) (lastLog : Int) :
    Decidable (evalCond cfg ts' lastLog) := by
  unfold evalCond
  infer_instance

/-- The episode and update events every generation performs (runner.py
lines 47-51). -/
def baseEvs (popSize : Nat) : List Ev :=
  (List.range popSize).map Ev.runEpisode ++ [Ev.updateEvoAC]

/-- The conditional print of runner.py lines 59-60. -/
def printOpt (cfg : GenConfig) (gen : Nat) : List Ev :=
  if gen % cfg.printInterval = 0 then [Ev.printData] else []

/-- The events of a generation whose evaluation block ran (runner.py lines
53-62): test rollout, fitness logging, conditional print. -/
def evalEvs (cfg : GenConfig) (gen : Nat) (f : Rat) : List Ev :=
  baseEvs cfg.popSize ++ [Ev.evalTest f, Ev.logFit] ++ printOpt cfg gen

/-- One generation of `EvoACRunner.train` (runner.py lines 46-70): episodes
for every individual, the combined update, the conditional evaluation block
(test, log, conditional print, update of last_log, then the stop check —
which reads `stop_fit` and raises when the attribute was never set), the
install of the staged population, and the budget check. Episode lengths and
the evaluation's mean test fitness come from oracles; returns the new
timestep counter, the new last_log, how the generation exited, and the event
trace in execution order. -/
def genStep (cfg : GenConfig) (gen : Nat) (stepsOf : Nat → Nat) (testFit : Rat)
    (ts : Nat) (lastLog : Int) : Except String (Nat × Int × GenExit × List Ev) :=
  let ts' := ts + stepSum cfg.popSize stepsOf
  if evalCond cfg ts' lastLog then
    match cfg.stopFit with
    | none => .error attrErr
    | some tf =>
      if testFit ≥ tf then
        .ok (ts', ts', .fitnessStop, evalEvs cfg gen testFit)
      else if ts' > cfg.budget then
        .ok (ts', ts', .budgetStop, evalEvs cfg gen testFit ++ [Ev.insertParams])
      else
        .ok (ts', ts', .cont, evalEvs cfg gen testFit ++ [Ev.insertParams])
  else
    if ts' > cfg.budget then
      .ok (ts', lastLog, .budgetStop, baseEvs cfg.popSize ++ [Ev.insertParams])
    else
      .ok (ts', lastLog, .cont, baseEvs cfg.popSize ++ [Ev.insertParams])

/-- How a whole run's generation loop ends. -/
inductive ExitKind
  | fitnessStop
  | budgetStop
  | ceiling
deriving DecidableEq, Repr

/-- The generation loop of `EvoACRunner.train` (runner.py lines 46-70) with
explicit fuel, collecting every generation's event trace and the exit kind. -/
def trainAux (cfg : GenConfig) (oracle : Nat → (Nat → Nat) × Rat) :
    Nat → Nat → Nat → Int → Except String (List (Nat × List Ev) × ExitKind)
  | 0, _, _, _ => .ok ([], .ceiling)
  | fuel + 1, gen, ts, lastLog =>
    match genStep cfg gen (oracle gen).1 (oracle gen).2 ts lastLog with
    | .error e => .error e
    | .ok (_, _, .fitnessStop, evs) => .ok ([(gen, evs)], .fitnessStop)
    | .ok (_, _, .budgetStop, evs) => .ok ([(gen, evs)], .budgetStop)
    | .ok (ts', lastLog', .cont, evs) =>
      match trainAux cfg oracle fuel (gen + 1) ts' lastLog' with
      | .error e => .error e
      | .ok (tr, ek) => .ok ((gen, evs) :: tr, ek)

/-- One run of `EvoACRunner.train`: at most 10000 generations, timestep
counter starting at 0 and last_log at -9999999 (runner.py lines 42-46). -/
def train (cfg : GenConfig) (oracle : Nat → (Nat → Nat) × Rat) :
    Except String (List (Nat × List Ev) × ExitKind) :=
  trainAux cfg oracle 10000 0 0 (-9999999)

/-- The evaluation results recorded in one generation's event trace. -/
def evalFits (evs : List Ev) : List Rat :=
  evs.filterMap (fun e =>
    match e with
    | Ev.evalTest f => some f
    | _ => none)

/-- A gym environment identifier that is neither CartPole-v1 nor
LunarLander-v2. -/
def acrobotId : String := "Acrobot-v1"

/-- An unsupported test-strategy identifier. -/
def unknownStrat : String := "argmax"

/-- Concrete configuration with an environment that has no hard-coded stop
fitness. -/
def acrobotConfig : Config := ⟨⟨1⟩, ⟨acrobotId, 1, 3, 1, 1, bestStrat⟩⟩

/-- Concrete configuration with an unsupported test-strategy identifier. -/
def unknownStratConfig : Config := ⟨⟨1⟩, ⟨cartPoleId, 1, 3, 1, 1, unknownStrat⟩⟩

/-! ### Round-trip lemmas (claim C1) -/

theorem layerVals_eq_map (ind : List TorchLayer) :
    layerVals ind = (flatParams ind).map (fun p => p.value) := by
  induction ind with
  | nil => rfl
  | cons l ls ih =>
    simp only [layerVals, flatParams, List.flatMap_cons, List.map_append] at *
    rw [ih]

theorem stateAssign_aligned (incoming : List (List Tensor)) (popIdx : Nat)
    (ps : List Param) (k : Nat)
    (h : ∀ j, j < ps.length → readAt incoming popIdx (k + j) =
      ((ps.map (fun p => p.value))[j]? : Option Tensor)) :
    stateAssign incoming popIdx k ps = .ok (ps.map (fun p => p.value), k + ps.length) := by
  induction ps generalizing k with
  | nil => simp [stateAssign]
  | cons p ps ih =>
    have h0 : readAt incoming popIdx k = some p.value := by
      have := h 0 (by simp)
      simpa using this
    have hrest : ∀ j, j < ps.length →
        readAt incoming popIdx (k + 1 + j) = ((ps.map (fun p => p.value))[j]? : Option Tensor) := by
      intro j hj
      have := h (j + 1) (by simpa using Nat.succ_lt_succ hj)
      simpa [Nat.add_assoc, Nat.add_comm 1 j] using this
    simp only [stateAssign, h0]
    rw [ih (k + 1) hrest]
    simp [Nat.add_assoc, Nat.add_comm 1 ps.length]

theorem load_state_dict_self (ps : List Param) :
    load_state_dict ps (ps.map (fun p => p.value)) = .ok ps := by
  induction ps with
  | nil => rfl
  | cons p ps ih =>
    simp [load_state_dict, ih]

theorem insertIndividual_aligned (incoming : List (List Tensor)) (popIdx : Nat)
    (ind : List TorchLayer) (k : Nat)
    (h : ∀ j, j < (layerVals ind).length →
      readAt incoming popIdx (k + j) = ((layerVals ind)[j]? : Option Tensor)) :
    insertIndividual incoming popIdx k ind = .ok ind := by
  induction ind generalizing k with
  | nil => rfl
  | cons l ls ih =>
    have hsplit : layerVals (l :: ls) = l.params.map (fun p => p.value) ++ layerVals ls := by
      simp [layerVals, List.flatMap_cons]
    have hlen : (layerVals (l :: ls)).length =
        l.params.length + (layerVals ls).length := by
      simp [hsplit]
    have hhead : ∀ j, j < l.params.length →
        readAt incoming popIdx (k + j) =
          ((l.params.map (fun p => p.value))[j]? : Option Tensor) := by
      intro j hj
      have hj' : j < (layerVals (l :: ls)).length := by
        omega
      have := h j hj'
      rw [this, hsplit, List.getElem?_append_left (by simpa using hj)]
    have htail : ∀ j, j < (layerVals ls).length →
        readAt incoming popIdx (k + l.params.length + j) =
          ((layerVals ls)[j]? : Option Tensor) := by
      intro j hj
      have hj' : l.params.length + j < (layerVals (l :: ls)).length := by
        omega
      have h2 := h (l.params.length + j) hj'
      rw [hsplit, List.getElem?_append_right (by simp)] at h2
      simp only [List.length_map, Nat.add_sub_cancel_left] at h2
      rw [Nat.add_assoc, h2]
    simp only [insertIndividual]
    rw [stateAssign_aligned incoming popIdx l.params k hhead]
    simp only [load_state_dict_self]
    rw [ih (k + l.params.length) htail]

theorem insertPop_extracted (m : EvoACModel) (nets : List (List TorchLayer)) (i0 : Nat)
    (h : ∀ idx, idx < nets.length →
      (m.extract_params)[i0 + idx]? = some (layerVals (nets.getD idx []))) :
    insertPop m.extract_params i0 nets = .ok nets := by
  induction nets generalizing i0 with
  | nil => rfl
  | cons ind inds ih =>
    have hind : (m.extract_params)[i0]? = some (layerVals ind) := by
      have := h 0 (by simp)
      simpa using this
    have hreads : ∀ j, j < (layerVals ind).length →
        readAt m.extract_params i0 (0 + j) = ((layerVals ind)[j]? : Option Tensor) := by
      intro j hj
      simp only [readAt, hind, Nat.zero_add]
    have hrest : ∀ idx, idx < inds.length →
        (m.extract_params)[i0 + 1 + idx]? = some (layerVals (inds.getD idx [])) := by
      intro idx hidx
      have := h (idx + 1) (by simpa using Nat.succ_lt_succ hidx)
      simpa [Nat.add_assoc, Nat.add_comm 1 idx] using this
    simp only [insertPop]
    rw [insertIndividual_aligned m.extract_params i0 ind 0 hreads]
    rw [ih (i0 + 1) hrest]

/-- Claim C1: for every population network state, inserting the bundle
returned by extraction is a no-op — the model after
`insert_params(extract_params())` equals the model before, so every head
parameter value (for all individuals, layers and parameter positions) is
unchanged bit-for-bit. -/
theorem insert_extract_roundtrip (m : EvoACModel) :
    m.insert_params m.extract_params = .ok m := by
  have h : ∀ idx, idx < m.policyNets.length →
      (m.extract_params)[0 + idx]? = some (layerVals (m.policyNets.getD idx [])) := by
    intro idx hidx
    simp only [Nat.zero_add, EvoACModel.extract_params, List.getElem?_map]
    rw [List.getElem?_eq_getElem hidx]
    simp [List.getD, List.getElem?_eq_getElem hidx]
  simp only [EvoACModel.insert_params]
  rw [insertPop_extracted m m.policyNets 0 h]

/-! ### Bundle layout (claim C7) -/

theorem layerVals_eq_flatten (ind : List TorchLayer) :
    layerVals ind = (ind.map (fun l => l.params.map (fun p => p.value))).flatten := by
  induction ind with
  | nil => rfl
  | cons l ls ih =>
    simp only [layerVals, List.flatMap_cons, List.map_cons, List.flatten_cons] at *
    rw [ih]

/-- Claim C7 counterexample: for a one-individual population whose head has
two layers (with two and one trainable parameters respectively),
extract_params returns one flat list of three tensors for that individual —
not one sub-sequence per head layer (which would give an entry of length
two). The claimed [individual][layer][parameter-tensor] nesting is false. -/
theorem extract_params_entry_not_per_layer :
    mTwoLayer.extract_params.map List.length = [3] ∧
    mTwoLayer.policyNets.map List.length = [2] ∧ (3 : Nat) ≠ 2 := by
  refine ⟨rfl, rfl, by decide⟩

/-- Claim C7 (amended): for every population network, extract_params returns
a bundle of length P (one entry per individual), but each individual's entry
is the flattening of the spec's per-layer nesting: a single flat list of that
head's trainable parameter tensors, concatenated across layers in declaration
order, rather than one sub-sequence per head layer. -/
theorem extract_params_flat_layout (m : EvoACModel) :
    m.extract_params.length = m.policyNets.length ∧
    m.extract_params = (extract_params_nested m).map List.flatten := by
  constructor
  · simp [EvoACModel.extract_params]
  · simp only [EvoACModel.extract_params, extract_params_nested, List.map_map]
    have hfun : layerVals =
        fun ind => (List.map (fun l => l.params.map (fun p => p.value)) ind).flatten :=
      funext layerVals_eq_flatten
    rw [hfun]
    rfl

/-! ### Insertion consumption lemmas (claim C5) -/

theorem stateAssign_ok (b : List (List Tensor)) (i : Nat) (ps : List Param)
    (k : Nat) (vs : List Tensor) (k' : Nat)
    (h : stateAssign b i k ps = .ok (vs, k')) :
    k' = k + ps.length ∧ vs.length = ps.length ∧
      ∀ j, j < ps.length → readAt b i (k + j) = vs[j]? := by
  induction ps generalizing k vs k' with
  | nil =>
    simp only [stateAssign, Except.ok.injEq, Prod.mk.injEq] at h
    obtain ⟨hvs, hk⟩ := h
    subst hvs; subst hk
    simp
  | cons p ps ih =>
    simp only [stateAssign] at h
    cases hr : readAt b i k with
    | none => rw [hr] at h; exact absurd h (by simp)
    | some t =>
      rw [hr] at h
      cases hsa : stateAssign b i (k + 1) ps with
      | error e => rw [hsa] at h; exact absurd h (by simp)
      | ok pr =>
        obtain ⟨ts, idx2⟩ := pr
        rw [hsa] at h
        simp only [Except.ok.injEq, Prod.mk.injEq] at h
        obtain ⟨hvs, hk⟩ := h
        subst hvs; subst hk
        obtain ⟨ih1, ih2, ih3⟩ := ih (k + 1) ts idx2 hsa
        refine ⟨by simp only [List.length_cons]; omega, by simp [ih2], ?_⟩
        intro j hj
        simp only [List.length_cons] at hj
        cases j with
        | zero => simpa using hr
        | succ j =>
          have := ih3 j (by omega)
          simpa [Nat.add_assoc, Nat.add_comm 1 j] using this

theorem load_state_dict_ok (ps : List Param) (vs : List Tensor) (ps' : List Param)
    (h : load_state_dict ps vs = .ok ps') :
    vs.length = ps.length ∧
      ∀ (j : Nat) (t : Tensor) (q : Param),
        vs[j]? = some t → ps[j]? = some q → t.shape = q.value.shape := by
  induction ps generalizing vs ps' with
  | nil =>
    cases vs with
    | nil => simp
    | cons t ts => exact absurd h (by simp [load_state_dict])
  | cons p ps ih =>
    cases vs with
    | nil => exact absurd h (by simp [load_state_dict])
    | cons t ts =>
      simp only [load_state_dict] at h
      by_cases hs : t.shape = p.value.shape
      · rw [if_pos hs] at h
        cases hld : load_state_dict ps ts with
        | error e => rw [hld] at h; exact absurd h (by simp)
        | ok qs =>
          obtain ⟨ih1, ih2⟩ := ih ts qs hld
          refine ⟨by simp [ih1], ?_⟩
          intro j t' p' ht hp
          cases j with
          | zero =>
            simp only [List.getElem?_cons_zero, Option.some.injEq] at ht hp
            subst ht; subst hp; exact hs
          | succ j =>
            simp only [List.getElem?_cons_succ] at ht hp
            exact ih2 j t' p' ht hp
      · rw [if_neg hs] at h; exact absurd h (by simp)

theorem insertIndividual_ok (b : List (List Tensor)) (i : Nat)
    (ind : List TorchLayer) (k : Nat) (ind' : List TorchLayer)
    (h : insertIndividual b i k ind = .ok ind') :
    ∀ (j : Nat) (p : Param), (flatParams ind)[j]? = some p →
      ∃ t, readAt b i (k + j) = some t ∧ t.shape = p.value.shape := by
  induction ind generalizing k ind' with
  | nil => intro j p hp; simp [flatParams] at hp
  | cons l ls ih =>
    simp only [insertIndividual] at h
    cases hsa : stateAssign b i k l.params with
    | error e => rw [hsa] at h; exact absurd h (by simp)
    | ok pr =>
      obtain ⟨vals, idx'⟩ := pr
      rw [hsa] at h
      simp only [] at h
      cases hld : load_state_dict l.params vals with
      | error e => rw [hld] at h; exact absurd h (by simp)
      | ok ps' =>
        rw [hld] at h
        simp only [] at h
        cases hii : insertIndividual b i idx' ls with
        | error e => rw [hii] at h; exact absurd h (by simp)
        | ok ls' =>
          obtain ⟨hk, hlen, hreads⟩ := stateAssign_ok b i l.params k vals idx' hsa
          obtain ⟨hlen2, hshapes⟩ := load_state_dict_ok l.params vals ps' hld
          subst hk
          intro j p hp
          rw [show flatParams (l :: ls) = l.params ++ flatParams ls by
            simp [flatParams, List.flatMap_cons]] at hp
          by_cases hj : j < l.params.length
          · rw [List.getElem?_append_left hj] at hp
            have hread := hreads j hj
            have hvj : ∃ t, vals[j]? = some t := by
              have : j < vals.length := by omega
              exact ⟨vals[j], List.getElem?_eq_getElem this⟩
            obtain ⟨t, hvt⟩ := hvj
            exact ⟨t, by rw [hread, hvt], hshapes j t p hvt hp⟩
          · rw [List.getElem?_append_right (by omega)] at hp
            obtain ⟨t, ht, hts⟩ := ih (k + l.params.length) ls' hii (j - l.params.length) p hp
            refine ⟨t, ?_, hts⟩
            rw [← ht]
            congr 1
            omega

theorem insertPop_ok (b : List (List Tensor)) (i0 : Nat)
    (nets : List (List TorchLayer)) (nets' : List (List TorchLayer))
    (h : insertPop b i0 nets = .ok nets') :
    ∀ (idx : Nat) (ind : List TorchLayer), nets[idx]? = some ind →
      ∀ (j : Nat) (p : Param), (flatParams ind)[j]? = some p →
        ∃ t, readAt b (i0 + idx) j = some t ∧ t.shape = p.value.shape := by
  induction nets generalizing i0 nets' with
  | nil => intro idx ind hind; simp at hind
  | cons ind0 inds ih =>
    simp only [insertPop] at h
    cases hii : insertIndividual b i0 0 ind0 with
    | error e => rw [hii] at h; exact absurd h (by simp)
    | ok ind0' =>
      rw [hii] at h
      cases hip : insertPop b (i0 + 1) inds with
      | error e => rw [hip] at h; exact absurd h (by simp)
      | ok inds' =>
        intro idx ind hind j p hp
        cases idx with
        | zero =>
          simp only [List.getElem?_cons_zero, Option.some.injEq] at hind
          subst hind
          have := insertIndividual_ok b i0 ind0 0 ind0' hii j p hp
          simpa using this
        | succ idx =>
          simp only [List.getElem?_cons_succ] at hind
          have := ih (i0 + 1) inds' hip idx ind hind j p hp
          rw [show i0 + (idx + 1) = i0 + 1 + idx by omega]
          exact this

theorem stateAssign_congr (b b' : List (List Tensor)) (i : Nat) (ps : List Param)
    (k : Nat) (h : ∀ j, j < ps.length → readAt b i (k + j) = readAt b' i (k + j)) :
    stateAssign b i k ps = stateAssign b' i k ps := by
  induction ps generalizing k with
  | nil => rfl
  | cons p ps ih =>
    have h0 : readAt b i k = readAt b' i k := by simpa using h 0 (by simp)
    have hrest : ∀ j, j < ps.length →
        readAt b i (k + 1 + j) = readAt b' i (k + 1 + j) := by
      intro j hj
      simpa [Nat.add_assoc, Nat.add_comm 1 j] using
        h (j + 1) (by simp only [List.length_cons]; omega)
    simp only [stateAssign]
    rw [h0, ih (k + 1) hrest]

theorem insertIndividual_congr (b b' : List (List Tensor)) (i : Nat)
    (ind : List TorchLayer) (k : Nat)
    (h : ∀ j, j < (flatParams ind).length →
      readAt b i (k + j) = readAt b' i (k + j)) :
    insertIndividual b i k ind = insertIndividual b' i k ind := by
  induction ind generalizing k with
  | nil => rfl
  | cons l ls ih =>
    have hflat : (flatParams (l :: ls)).length =
        l.params.length + (flatParams ls).length := by
      simp [flatParams, List.flatMap_cons]
    have hhead : ∀ j, j < l.params.length →
        readAt b i (k + j) = readAt b' i (k + j) := by
      intro j hj; exact h j (by omega)
    have htail : ∀ j, j < (flatParams ls).length →
        readAt b i (k + l.params.length + j) = readAt b' i (k + l.params.length + j) := by
      intro j hj
      have := h (l.params.length + j) (by omega)
      simpa [Nat.add_assoc] using this
    simp only [insertIndividual]
    rw [stateAssign_congr b b' i l.params k hhead]
    cases hsa : stateAssign b' i k l.params with
    | error e => rfl
    | ok pr =>
      obtain ⟨vals, idx'⟩ := pr
      obtain ⟨hk, -, -⟩ := stateAssign_ok b' i l.params k vals idx' hsa
      subst hk
      dsimp only
      cases load_state_dict l.params vals with
      | error e => rfl
      | ok ps' =>
        dsimp only
        rw [ih (k + l.params.length) htail]

theorem insertPop_congr (b b' : List (List Tensor)) (i0 : Nat)
    (nets : List (List TorchLayer))
    (h : ∀ (idx : Nat) (ind : List TorchLayer), nets[idx]? = some ind →
      ∀ j, j < (flatParams ind).length →
        readAt b (i0 + idx) j = readAt b' (i0 + idx) j) :
    insertPop b i0 nets = insertPop b' i0 nets := by
  induction nets generalizing i0 with
  | nil => rfl
  | cons ind0 inds ih =>
    have hhead : ∀ j, j < (flatParams ind0).length →
        readAt b i0 (0 + j) = readAt b' i0 (0 + j) := by
      intro j hj
      have := h 0 ind0 (by simp) j hj
      simpa using this
    have htail : ∀ idx ind, inds[idx]? = some ind → ∀ j, j < (flatParams ind).length →
        readAt b (i0 + 1 + idx) j = readAt b' (i0 + 1 + idx) j := by
      intro idx ind hind j hj
      have := h (idx + 1) ind (by simpa using hind) j hj
      rw [show i0 + (idx + 1) = i0 + 1 + idx by omega] at this
      exact this
    simp only [insertPop]
    rw [insertIndividual_congr b b' i0 ind0 0 hhead]
    cases insertIndividual b' i0 0 ind0 with
    | error e => rfl
    | ok ind0' =>
      rw [ih (i0 + 1) htail]

theorem readAt_extract (m : EvoACModel) (i j : Nat) (p : Tensor)
    (h : readAt m.extract_params i j = some p) :
    ∃ ind q, m.policyNets[i]? = some ind ∧ (flatParams ind)[j]? = some q ∧
      p = q.value := by
  simp only [readAt, EvoACModel.extract_params, List.getElem?_map] at h
  cases hi : m.policyNets[i]? with
  | none => rw [hi] at h; simp at h
  | some ind =>
    rw [hi] at h
    simp only [Option.map_some'] at h
    rw [layerVals_eq_map] at h
    simp only [List.getElem?_map] at h
    cases hj : (flatParams ind)[j]? with
    | none => rw [hj] at h; simp at h
    | some q =>
      rw [hj] at h
      simp only [Option.map_some', Option.some.injEq] at h
      exact ⟨ind, q, rfl, hj, h.symm⟩

/-- Claim C5 counterexample: a bundle carrying a surplus individual (two
entries for a one-individual population) does not mirror extraction's layout,
yet insert_params succeeds — silently ignoring the surplus entry — instead of
failing as the claim requires. -/
theorem insert_params_accepts_surplus :
    ¬ mirrorsLayout mOneParam [[tA], [tA]] ∧
      mOneParam.insert_params [[tA], [tA]] = .ok mOneParam := by
  constructor
  · unfold mirrorsLayout
    decide
  · rfl

/-- Claim C5 (amended): insert_params reads exactly the positions of the
layout produced by extract_params. Its outcome depends only on the bundle
values at those consumed positions, so surplus individuals and surplus
per-individual entries are silently ignored rather than rejected; conversely
a call succeeds only if every consumed position is present in the bundle with
exactly the tensor shape extraction would produce there, so missing entries
and shape mismatches at consumed positions always fail, and values are never
padded. -/
theorem insert_params_consumption :
    (∀ (m : EvoACModel) (b b' : List (List Tensor)),
      (∀ i j, readAt m.extract_params i j ≠ none → readAt b i j = readAt b' i j) →
      m.insert_params b = m.insert_params b')
    ∧ (∀ (m : EvoACModel) (b : List (List Tensor)) (m' : EvoACModel),
      m.insert_params b = .ok m' →
      ∀ i j p, readAt m.extract_params i j = some p →
        ∃ t, readAt b i j = some t ∧ t.shape = p.shape) := by
  constructor
  · intro m b b' h
    have hp : ∀ idx ind, m.policyNets[idx]? = some ind →
        ∀ j, j < (flatParams ind).length →
          readAt b (0 + idx) j = readAt b' (0 + idx) j := by
      intro idx ind hind j hj
      apply h
      simp only [readAt, EvoACModel.extract_params, List.getElem?_map, hind,
        Option.map_some', Nat.zero_add]
      rw [layerVals_eq_map]
      simp only [List.getElem?_map]
      rw [List.getElem?_eq_getElem hj]
      simp
    simp only [EvoACModel.insert_params]
    rw [insertPop_congr b b' 0 m.policyNets hp]
  · intro m b m' h i j p hrd
    obtain ⟨ind, q, hi, hj, hpq⟩ := readAt_extract m i j p hrd
    simp only [EvoACModel.insert_params] at h
    cases hip : insertPop b 0 m.policyNets with
    | error e => rw [hip] at h; exact absurd h (by simp)
    | ok nets =>
      have := insertPop_ok b 0 m.policyNets nets hip i ind hi j q hj
      simp only [Nat.zero_add] at this
      obtain ⟨t, ht, hts⟩ := this
      exact ⟨t, ht, by rw [hts, hpq]⟩

/-- Witness for the amended claim C5: instantiating the success direction at
the concrete one-parameter network with its own extracted bundle. -/
theorem insert_params_consumption_witness :
    ∀ i j p, readAt mOneParam.extract_params i j = some p →
      ∃ t, readAt [[tA]] i j = some t ∧ t.shape = p.shape :=
  insert_params_consumption.2 mOneParam [[tA]] mOneParam rfl

/-! ### Gradient extraction (claim C6) -/

theorem gradsOf_error (ps : List Param) (h : ∃ p ∈ ps, p.grad = none) :
    ∃ e, gradsOf ps = .error e := by
  induction ps with
  | nil => simp at h
  | cons p ps ih =>
    cases hg : p.grad with
    | none => exact ⟨gradAttrErr, by simp [gradsOf, hg]⟩
    | some g =>
      obtain ⟨q, hq, hqn⟩ := h
      rcases List.mem_cons.mp hq with rfl | hq'
      · exact absurd hg (by rw [hqn]; simp)
      · obtain ⟨e, he⟩ := ih ⟨q, hq', hqn⟩
        exact ⟨e, by simp [gradsOf, hg, he]⟩

theorem gradsOf_ok (ps : List Param)
    (h : ∀ p ∈ ps, ∃ t, p.grad = some t ∧ t.shape = p.value.shape) :
    ∃ gs, gradsOf ps = .ok gs ∧
      gs.map (fun t => t.shape) = ps.map (fun p => p.value.shape) := by
  induction ps with
  | nil => exact ⟨[], rfl, rfl⟩
  | cons p ps ih =>
    obtain ⟨t, ht, hts⟩ := h p (by simp)
    obtain ⟨gs, hgs, hshapes⟩ := ih (fun q hq => h q (by simp [hq]))
    exact ⟨t :: gs, by simp [gradsOf, ht, hgs], by simp [hts, hshapes]⟩

theorem individualGrads_error (ind : List TorchLayer)
    (h : ∃ p ∈ flatParams ind, p.grad = none) :
    ∃ e, individualGrads ind = .error e := by
  induction ind with
  | nil => simp [flatParams] at h
  | cons l ls ih =>
    obtain ⟨q, hq, hqn⟩ := h
    rw [show flatParams (l :: ls) = l.params ++ flatParams ls by
      simp [flatParams, List.flatMap_cons]] at hq
    rcases List.mem_append.mp hq with hql | hqr
    · obtain ⟨e, he⟩ := gradsOf_error l.params ⟨q, hql, hqn⟩
      exact ⟨e, by simp [individualGrads, he]⟩
    · obtain ⟨e, he⟩ := ih ⟨q, hqr, hqn⟩
      cases hg : gradsOf l.params with
      | error e' => exact ⟨e', by simp [individualGrads, hg]⟩
      | ok gs => exact ⟨e, by simp [individualGrads, hg, he]⟩

theorem individualGrads_ok (ind : List TorchLayer)
    (h : ∀ p ∈ flatParams ind, ∃ t, p.grad = some t ∧ t.shape = p.value.shape) :
    ∃ gs, individualGrads ind = .ok gs ∧
      gs.map (fun t => t.shape) = (flatParams ind).map (fun p => p.value.shape) := by
  induction ind with
  | nil => exact ⟨[], rfl, by simp [flatParams]⟩
  | cons l ls ih =>
    have hsplit : flatParams (l :: ls) = l.params ++ flatParams ls := by
      simp [flatParams, List.flatMap_cons]
    rw [hsplit] at h
    obtain ⟨gs1, hgs1, hsh1⟩ := gradsOf_ok l.params
      (fun p hp => h p (List.mem_append.mpr (Or.inl hp)))
    obtain ⟨gs2, hgs2, hsh2⟩ := ih
      (fun p hp => h p (List.mem_append.mpr (Or.inr hp)))
    refine ⟨gs1 ++ gs2, by simp [individualGrads, hgs1, hgs2], ?_⟩
    rw [hsplit]
    simp [List.map_append, hsh1, hsh2]

theorem popGrads_error (nets : List (List TorchLayer)) (ind : List TorchLayer)
    (hind : ind ∈ nets) (e : String) (he : individualGrads ind = .error e) :
    ∃ e', popGrads nets = .error e' := by
  induction nets with
  | nil => simp at hind
  | cons ind0 inds ih =>
    rcases List.mem_cons.mp hind with rfl | hind'
    · exact ⟨e, by simp [popGrads, he]⟩
    · cases hg : individualGrads ind0 with
      | error e' => exact ⟨e', by simp [popGrads, hg]⟩
      | ok gs =>
        obtain ⟨e2, he2⟩ := ih hind'
        exact ⟨e2, by simp [popGrads, hg, he2]⟩

theorem popGrads_ok (nets : List (List TorchLayer))
    (h : ∀ p ∈ nets.flatMap flatParams, ∃ t, p.grad = some t ∧ t.shape = p.value.shape) :
    ∃ g, popGrads nets = .ok g ∧
      g.map (fun gs => gs.map (fun t => t.shape)) =
        nets.map (fun ind => (flatParams ind).map (fun p => p.value.shape)) := by
  induction nets with
  | nil => exact ⟨[], rfl, rfl⟩
  | cons ind inds ih =>
    rw [List.flatMap_cons] at h
    obtain ⟨gs, hgs, hsh⟩ := individualGrads_ok ind
      (fun p hp => h p (List.mem_append.mpr (Or.inl hp)))
    obtain ⟨g, hg, hgsh⟩ := ih (fun p hp => h p (List.mem_append.mpr (Or.inr hp)))
    exact ⟨gs :: g, by simp [popGrads, hgs, hg], by simp [hsh, hgsh]⟩

theorem bundleShape_extract (m : EvoACModel) :
    bundleShape m.extract_params =
      m.policyNets.map (fun ind => (flatParams ind).map (fun p => p.value.shape)) := by
  simp only [bundleShape, EvoACModel.extract_params, List.map_map]
  apply List.map_congr_left
  intro ind _
  simp only [Function.comp]
  rw [layerVals_eq_map, List.map_map]
  rfl

/-- Claim C6: if any head parameter of any individual carries no gradient,
extract_grads raises (an AttributeError on the absent grad) rather than
returning a defaulted gradient; and when every head parameter carries a
gradient of its own shape (the autograd invariant after a full backward
pass), extraction succeeds with a bundle whose per-individual entry counts
and tensor shapes match the parameter bundle of the same individual. -/
theorem extract_grads_contract (m : EvoACModel) :
    ((∃ p ∈ headParams m, p.grad = none) → ∃ e, m.extract_grads = .error e)
    ∧ ((∀ p ∈ headParams m, ∃ t, p.grad = some t ∧ t.shape = p.value.shape) →
      ∃ g, m.extract_grads = .ok g ∧ bundleShape g = bundleShape m.extract_params) := by
  constructor
  · intro h
    obtain ⟨q, hq, hqn⟩ := h
    rw [headParams] at hq
    obtain ⟨ind, hind, hqind⟩ := List.mem_flatMap.mp hq
    obtain ⟨e, he⟩ := individualGrads_error ind ⟨q, hqind, hqn⟩
    rw [EvoACModel.extract_grads]
    exact popGrads_error m.policyNets ind hind e he
  · intro h
    obtain ⟨g, hg, hsh⟩ := popGrads_ok m.policyNets h
    refine ⟨g, hg, ?_⟩
    rw [bundleShape_extract]
    rw [← hsh]
    rfl

/-- Witness for claim C6: a network whose single head parameter has no
gradient makes extraction fail, and one whose parameter carries a
shape-matching gradient extracts a bundle shape-matching its parameters. -/
theorem extract_grads_contract_witness :
    (∃ e, mOneParam.extract_grads = .error e) ∧
    (∃ g, mWithGrad.extract_grads = .ok g ∧
      bundleShape g = bundleShape mWithGrad.extract_params) :=
  ⟨(extract_grads_contract mOneParam).1 (by decide),
   (extract_grads_contract mWithGrad).2 (by
    intro p hp
    simp only [headParams, mWithGrad, flatParams, List.flatMap_cons,
      List.flatMap_nil, List.append_nil, List.mem_cons, List.not_mem_nil,
      or_false] at hp
    subst hp
    exact ⟨tA, rfl, rfl⟩)⟩

/-! ### Weighted vote (claims C9 and C2) -/

theorem getD_mem_of_lt (xs : List Rat) (j : Nat) (h : j < xs.length) :
    xs.getD j 0 ∈ xs := by
  rw [List.getD_eq_getElem?_getD, List.getElem?_eq_getElem h]
  exact List.getElem_mem h

theorem npArgmax_spec (xs : List Rat) (hne : xs ≠ []) :
    npArgmax xs < xs.length ∧
    (∀ j, j < xs.length → xs.getD j 0 ≤ xs.getD (npArgmax xs) 0) ∧
    (∀ j, j < npArgmax xs → xs.getD j 0 < xs.getD (npArgmax xs) 0) := by
  induction xs with
  | nil => exact absurd rfl hne
  | cons x xs ih =>
    by_cases hall : ∀ y ∈ xs, y ≤ x
    · refine ⟨by
        simp only [npArgmax, List.length_cons]
        rw [if_pos hall]
        omega, ?_, ?_⟩
      · intro j hj
        simp only [npArgmax, if_pos hall]
        cases j with
        | zero => simp
        | succ j =>
          simp only [List.getD_cons_succ, List.getD_cons_zero]
          have hjlen : j < xs.length := by
            simp only [List.length_cons] at hj; omega
          exact hall _ (getD_mem_of_lt xs j hjlen)
      · intro j hj
        simp only [npArgmax, if_pos hall] at hj
        omega
    · have hxs : xs ≠ [] := by
        rintro rfl
        exact hall (fun y hy => absurd hy (List.not_mem_nil y))
      obtain ⟨hlt1, hmax, hstrict⟩ := ih hxs
      have hex : ∃ y ∈ xs, x < y := by
        by_contra hc
        push_neg at hc
        exact hall hc
      obtain ⟨y, hy, hylt⟩ := hex
      obtain ⟨jy, hjylen, hjyval⟩ := List.mem_iff_getElem.mp hy
      have hjy' : xs.getD jy 0 = y := by
        rw [List.getD_eq_getElem?_getD, List.getElem?_eq_getElem hjylen, hjyval]
        rfl
      have hxlt : x < xs.getD (npArgmax xs) 0 :=
        lt_of_lt_of_le hylt (hjy' ▸ hmax jy hjylen)
      refine ⟨?_, ?_, ?_⟩
      · simp only [npArgmax, if_neg hall, List.length_cons]
        omega
      · intro j hj
        simp only [npArgmax, if_neg hall, List.getD_cons_succ]
        cases j with
        | zero => simpa using le_of_lt hxlt
        | succ j =>
          simp only [List.getD_cons_succ]
          exact hmax j (by simp only [List.length_cons] at hj; omega)
      · intro j hj
        simp only [npArgmax, if_neg hall] at hj
        simp only [npArgmax, if_neg hall, List.getD_cons_succ]
        cases j with
        | zero => simpa using hxlt
        | succ j =>
          simp only [List.getD_cons_succ]
          exact hstrict j (by omega)

theorem foldl_set_length (l : List (Nat × Rat)) :
    ∀ init : List Rat,
      (l.foldl (fun votes af => votes.set af.1 (votes.getD af.1 0 + af.2)) init).length
        = init.length := by
  induction l with
  | nil => intro init; rfl
  | cons a l ih =>
    intro init
    rw [List.foldl_cons, ih]
    simp [List.length_set]

theorem voteTotals_length (n : Nat) (actions : List Nat) (fits : List Rat) :
    (voteTotals n actions fits).length = n := by
  rw [voteTotals, foldl_set_length]
  simp

/-- Claim C9: under weightedvote the selected action is a valid action index
carrying the maximal fitness-weighted vote total, every action below the
selected index has strictly smaller total (so exact ties are broken toward
the lowest action index, deterministically); and in the concrete scenario
with fitnesses [1, 2, 5] and proposed actions [0, 1, 1] over two actions the
vote totals are [1, 7] and the selected action is 1. -/
theorem weightedvote_selection (n : Nat) (actions : List Nat) (fits : List Rat)
    (hn : 0 < n) (_hval : ∀ a ∈ actions, a < n) :
    weightedVoteAction n actions fits < n ∧
    (∀ b, b < n → (voteTotals n actions fits).getD b 0 ≤
      (voteTotals n actions fits).getD (weightedVoteAction n actions fits) 0) ∧
    (∀ b, b < weightedVoteAction n actions fits →
      (voteTotals n actions fits).getD b 0 <
        (voteTotals n actions fits).getD (weightedVoteAction n actions fits) 0) ∧
    voteTotals 2 [0, 1, 1] [1, 2, 5] = [1, 7] ∧
    weightedVoteAction 2 [0, 1, 1] [1, 2, 5] = 1 := by
  have hlen := voteTotals_length n actions fits
  have hne : voteTotals n actions fits ≠ [] := by
    intro hcontra
    rw [hcontra] at hlen
    simp only [List.length_nil] at hlen
    omega
  obtain ⟨h1, h2, h3⟩ := npArgmax_spec (voteTotals n actions fits) hne
  rw [hlen] at h1
  have hvt : voteTotals 2 [0, 1, 1] [1, 2, 5] = [1, 7] := by
    norm_num [voteTotals, List.replicate]
  have hwv : weightedVoteAction 2 [0, 1, 1] [1, 2, 5] = 1 := by
    rw [weightedVoteAction, hvt]
    norm_num [npArgmax]
  exact ⟨h1, fun b hb => h2 b (by omega), h3, hvt, hwv⟩

/-- Witness for claim C9: the theorem instantiated at the end-to-end scenario
(three individuals, two actions, fitnesses [1, 2, 5], actions [0, 1, 1]). -/
theorem weightedvote_selection_witness :
    weightedVoteAction 2 [0, 1, 1] [1, 2, 5] < 2 ∧
    (∀ b, b < 2 → (voteTotals 2 [0, 1, 1] [1, 2, 5]).getD b 0 ≤
      (voteTotals 2 [0, 1, 1] [1, 2, 5]).getD (weightedVoteAction 2 [0, 1, 1] [1, 2, 5]) 0) ∧
    (∀ b, b < weightedVoteAction 2 [0, 1, 1] [1, 2, 5] →
      (voteTotals 2 [0, 1, 1] [1, 2, 5]).getD b 0 <
        (voteTotals 2 [0, 1, 1] [1, 2, 5]).getD (weightedVoteAction 2 [0, 1, 1] [1, 2, 5]) 0) ∧
    voteTotals 2 [0, 1, 1] [1, 2, 5] = [1, 7] ∧
    weightedVoteAction 2 [0, 1, 1] [1, 2, 5] = 1 :=
  weightedvote_selection 2 [0, 1, 1] [1, 2, 5] (by decide) (by decide)

/-- Claim C2 counterexample: under weightedvote each individual's action
comes from get_action, which draws a stochastic sample from the softmax
distribution. With logits [0, 1], a positive increasing surrogate
exponential and uniform draw 1/10, the queried action is 0 while the
most-likely action under the distribution is 1 — so the action is not the
deterministic greedy (most-likely) choice the claim requires. -/
theorem weightedvote_action_not_greedy :
    wvProposedActions (fun x => x + 2) [[0, 1]] [1/10]
      ≠ [npArgmax (softmaxE (fun x => x + 2) [0, 1])] := by
  norm_num [wvProposedActions, get_action_sample, softmaxE, catSample, npArgmax]

theorem catSample_lt_length (ps : List Rat) (u : Rat)
    (h0 : 0 ≤ u) (hu : u < ps.sum) : catSample ps u < ps.length := by
  induction ps generalizing u with
  | nil =>
    simp only [List.sum_nil] at hu
    exact absurd (lt_of_le_of_lt h0 hu) (lt_irrefl 0)
  | cons p ps ih =>
    simp only [catSample]
    by_cases hlt : u < p
    · simp [hlt]
    · rw [if_neg hlt]
      simp only [List.length_cons, Nat.add_lt_add_iff_right]
      have hge := not_lt.mp hlt
      apply ih
      · linarith
      · simp only [List.sum_cons] at hu
        linarith

/-- Claim C2 (amended): under weightedvote, each individual's queried action
is the stochastic categorical sample (inverse-CDF over a uniform draw) from
that individual's own softmax policy distribution — not the deterministic
most-likely action; for any draw within the distribution's total mass the
sampled action is a valid action index. -/
theorem weightedvote_actions_sampled (e : Rat → Rat)
    (logitsPerInd : List (List Rat)) (us : List Rat) :
    wvProposedActions e logitsPerInd us =
      List.zipWith (fun lg u => catSample (softmaxE e lg) u) logitsPerInd us ∧
    ∀ lg u, 0 ≤ u → u < (softmaxE e lg).sum →
      get_action_sample e lg u < lg.length := by
  refine ⟨rfl, ?_⟩
  intro lg u h0 hu
  have h := catSample_lt_length (softmaxE e lg) u h0 hu
  simpa [get_action_sample, softmaxE] using h

/-- Witness for the amended claim C2: the sampling bound instantiated at two
actions, logits [0, 1] and draw 1/10. -/
theorem weightedvote_actions_sampled_witness :
    get_action_sample (fun x => x + 2) [0, 1] (1/10) < 2 :=
  (weightedvote_actions_sampled (fun x => x + 2) [[0, 1]] [1/10]).2 [0, 1] (1/10)
    (by norm_num) (by norm_num [softmaxE])

/-! ### Generation-step inversion (claims C3, C4, C10) -/

theorem genStep_cases (cfg : GenConfig) (gen : Nat) (stepsOf : Nat → Nat)
    (testFit : Rat) (ts : Nat) (lastLog : Int) (ts' : Nat) (lastLog' : Int)
    (ex : GenExit) (evs : List Ev)
    (h : genStep cfg gen stepsOf testFit ts lastLog = .ok (ts', lastLog', ex, evs)) :
    (ex = .fitnessStop ∧ evs = evalEvs cfg gen testFit ∧
      ∃ tf, cfg.stopFit = some tf ∧ tf ≤ testFit)
    ∨ ((ex = .budgetStop ∨ ex = .cont) ∧
      evs = evalEvs cfg gen testFit ++ [Ev.insertParams] ∧
      ∃ tf, cfg.stopFit = some tf ∧ testFit < tf)
    ∨ (ex = .cont ∧ evs = baseEvs cfg.popSize ++ [Ev.insertParams] ∧
      ¬ evalCond cfg (ts + stepSum cfg.popSize stepsOf) lastLog) := by
  simp only [genStep] at h
  by_cases hc : evalCond cfg (ts + stepSum cfg.popSize stepsOf) lastLog
  · rw [if_pos hc] at h
    cases hsf : cfg.stopFit with
    | none => rw [hsf] at h; exact absurd h (by simp)
    | some tf =>
      rw [hsf] at h
      dsimp only at h
      by_cases hge : testFit ≥ tf
      · rw [if_pos hge] at h
        simp only [Except.ok.injEq, Prod.mk.injEq] at h
        obtain ⟨-, -, hex, hevs⟩ := h
        exact Or.inl ⟨hex.symm, hevs.symm, tf, rfl, hge⟩
      · rw [if_neg hge] at h
        by_cases hbud : ts + stepSum cfg.popSize stepsOf > cfg.budget
        · rw [if_pos hbud] at h
          simp only [Except.ok.injEq, Prod.mk.injEq] at h
          obtain ⟨-, -, hex, hevs⟩ := h
          exact Or.inr (Or.inl ⟨Or.inl hex.symm, hevs.symm, tf, rfl, not_le.mp hge⟩)
        · rw [if_neg hbud] at h
          simp only [Except.ok.injEq, Prod.mk.injEq] at h
          obtain ⟨-, -, hex, hevs⟩ := h
          exact Or.inr (Or.inl ⟨Or.inr hex.symm, hevs.symm, tf, rfl, not_le.mp hge⟩)
  · rw [if_neg hc] at h
    by_cases hbud : ts + stepSum cfg.popSize stepsOf > cfg.budget
    · exact absurd (Or.inr hbud) hc
    · rw [if_neg hbud] at h
      simp only [Except.ok.injEq, Prod.mk.injEq] at h
      obtain ⟨-, -, hex, hevs⟩ := h
      exact Or.inr (Or.inr ⟨hex.symm, hevs.symm, hc⟩)

theorem genStep_error_eq (cfg : GenConfig) (gen : Nat) (stepsOf : Nat → Nat)
    (testFit : Rat) (ts : Nat) (lastLog : Int) (e : String)
    (h : genStep cfg gen stepsOf testFit ts lastLog = .error e) : e = attrErr := by
  simp only [genStep] at h
  by_cases hc : evalCond cfg (ts + stepSum cfg.popSize stepsOf) lastLog
  · rw [if_pos hc] at h
    cases hsf : cfg.stopFit with
    | none =>
      rw [hsf] at h
      simp only [Except.error.injEq] at h
      exact h.symm
    | some tf =>
      rw [hsf] at h
      dsimp only at h
      by_cases hge : testFit ≥ tf
      · rw [if_pos hge] at h; exact absurd h (by simp)
      · rw [if_neg hge] at h
        by_cases hbud : ts + stepSum cfg.popSize stepsOf > cfg.budget
        · rw [if_pos hbud] at h; exact absurd h (by simp)
        · rw [if_neg hbud] at h; exact absurd h (by simp)
  · rw [if_neg hc] at h
    by_cases hbud : ts + stepSum cfg.popSize stepsOf > cfg.budget
    · rw [if_pos hbud] at h; exact absurd h (by simp)
    · rw [if_neg hbud] at h; exact absurd h (by simp)

theorem insertParams_not_mem_evalEvs (cfg : GenConfig) (gen : Nat) (f : Rat) :
    Ev.insertParams ∉ evalEvs cfg gen f := by
  intro hmem
  simp only [evalEvs, List.mem_append] at hmem
  rcases hmem with (hb | he) | hp
  · simp [baseEvs] at hb
  · simp at he
  · rw [printOpt] at hp
    split at hp <;> simp at hp

theorem mem_of_lookup (l : List Ev) (n : Nat) (a : Ev) (h : l[n]? = some a) :
    a ∈ l := by
  have hlen : n < l.length := by
    by_contra hcon
    push_neg at hcon
    rw [List.getElem?_eq_none hcon] at h
    exact absurd h (by simp)
  rw [List.getElem?_eq_getElem hlen] at h
  simp only [Option.some.injEq] at h
  exact h ▸ List.getElem_mem hlen

theorem lookup_lt_length (l : List Ev) (n : Nat) (a : Ev) (h : l[n]? = some a) :
    n < l.length := by
  by_contra hcon
  push_neg at hcon
  rw [List.getElem?_eq_none hcon] at h
  exact absurd h (by simp)

theorem append_single_lookup (front : List Ev) (x y : Ev) (hnx : x ∉ front)
    (i j : Nat) (hi : (front ++ [x])[i]? = some x)
    (hy : (front ++ [x])[j]? = some y) (hxy : y ≠ x) : j < i := by
  have hi_lt : i < front.length + 1 := by
    have := lookup_lt_length _ i x hi
    simpa using this
  have hj_lt : j < front.length + 1 := by
    have := lookup_lt_length _ j y hy
    simpa using this
  have hi_ge : front.length ≤ i := by
    by_contra hcon
    push_neg at hcon
    rw [List.getElem?_append_left hcon] at hi
    exact hnx (mem_of_lookup front i _ hi)
  have hieq : i = front.length := by omega
  have hne : j ≠ i := by
    intro heq
    rw [heq, hi] at hy
    simp only [Option.some.injEq] at hy
    exact hxy hy.symm
  omega

/-- Claim C3: within any generation of the training loop, the install of the
newly produced head bundle (insert_params, runner.py line 67) can only occur
strictly after that generation's evaluation and logging events in the
generation's execution trace, so evaluation always reads the pre-install
head parameters. -/
theorem insert_after_eval (cfg : GenConfig) (gen : Nat) (stepsOf : Nat → Nat)
    (testFit : Rat) (ts : Nat) (lastLog : Int) (ts' : Nat) (lastLog' : Int)
    (ex : GenExit) (evs : List Ev)
    (h : genStep cfg gen stepsOf testFit ts lastLog = .ok (ts', lastLog', ex, evs))
    (i j : Nat) (hi : evs[i]? = some Ev.insertParams)
    (hj : evs[j]? = some (Ev.evalTest testFit) ∨ evs[j]? = some Ev.logFit) :
    j < i := by
  rcases genStep_cases cfg gen stepsOf testFit ts lastLog ts' lastLog' ex evs h with
    ⟨-, hevs, -⟩ | ⟨-, hevs, -⟩ | ⟨-, hevs, -⟩
  · rw [hevs] at hi
    exact absurd (mem_of_lookup _ i _ hi) (insertParams_not_mem_evalEvs cfg gen testFit)
  · rw [hevs] at hi hj
    rcases hj with hj | hj
    · exact append_single_lookup _ _ _ (insertParams_not_mem_evalEvs cfg gen testFit)
        i j hi hj (by simp)
    · exact append_single_lookup _ _ _ (insertParams_not_mem_evalEvs cfg gen testFit)
        i j hi hj (by simp)
  · rw [hevs] at hj
    rcases hj with hj | hj
    · have hm := mem_of_lookup _ j _ hj
      simp [baseEvs] at hm
    · have hm := mem_of_lookup _ j _ hj
      simp [baseEvs] at hm

/-- Witness for claim C3: in a concrete generation that evaluates and
continues, the evalTest event sits at index 2 and insertParams at index 5 of
the trace, and the theorem yields 2 < 5. -/
theorem insert_after_eval_witness : (2 : Nat) < 5 :=
  insert_after_eval ⟨1, 1, 100, 1, some 999⟩ 0 (fun _ => 5) 0 0 (-9999999) 5 5
    .cont [Ev.runEpisode 0, Ev.updateEvoAC, Ev.evalTest 0, Ev.logFit,
      Ev.printData, Ev.insertParams] (by rfl) 5 2 (by rfl) (Or.inl (by rfl))

/-! ### Fitness-stop behavior (claim C4) -/

theorem evalFits_append (a b : List Ev) :
    evalFits (a ++ b) = evalFits a ++ evalFits b := by
  simp [evalFits, List.filterMap_append]

theorem evalFits_runEpisodes (ks : List Nat) :
    evalFits (ks.map Ev.runEpisode) = [] := by
  induction ks with
  | nil => rfl
  | cons k ks ih =>
    simp only [List.map_cons, evalFits, List.filterMap_cons]
    simp only [evalFits] at ih
    exact ih

theorem evalFits_base (n : Nat) : evalFits (baseEvs n) = [] := by
  rw [baseEvs, evalFits_append, evalFits_runEpisodes]
  rfl

theorem evalFits_printOpt (cfg : GenConfig) (gen : Nat) :
    evalFits (printOpt cfg gen) = [] := by
  rw [printOpt]
  split <;> rfl

theorem evalFits_evalEvs (cfg : GenConfig) (gen : Nat) (f : Rat) :
    evalFits (evalEvs cfg gen f) = [f] := by
  rw [evalEvs, evalFits_append, evalFits_append, evalFits_base, evalFits_printOpt]
  simp [evalFits]

theorem genStep_fits (cfg : GenConfig) (T : Rat) (hT : cfg.stopFit = some T)
    (gen : Nat) (stepsOf : Nat → Nat) (testFit : Rat) (ts : Nat) (lastLog : Int)
    (ts' : Nat) (lastLog' : Int) (ex : GenExit) (evs : List Ev)
    (h : genStep cfg gen stepsOf testFit ts lastLog = .ok (ts', lastLog', ex, evs)) :
    (ex = .fitnessStop → ∃ f, evalFits evs = [f] ∧ T ≤ f) ∧
    (ex ≠ .fitnessStop → ∀ f ∈ evalFits evs, f < T) := by
  rcases genStep_cases cfg gen stepsOf testFit ts lastLog ts' lastLog' ex evs h with
    ⟨hex, hevs, tf, htf, hge⟩ | ⟨hex, hevs, tf, htf, hlt⟩ | ⟨hex, hevs, -⟩
  · have htT : tf = T := by
      rw [hT] at htf
      exact (Option.some_inj.mp htf).symm
    constructor
    · intro _
      exact ⟨testFit, by rw [hevs, evalFits_evalEvs], htT ▸ hge⟩
    · intro hne
      exact absurd hex hne
  · have htT : tf = T := by
      rw [hT] at htf
      exact (Option.some_inj.mp htf).symm
    constructor
    · intro hfit
      rcases hex with h1 | h1 <;> (rw [hfit] at h1; exact absurd h1 (by simp))
    · intro _ f hf
      rw [hevs, evalFits_append, evalFits_evalEvs] at hf
      simp only [evalFits, List.filterMap_cons, List.filterMap_nil] at hf
      simp only [List.append_nil, List.mem_singleton] at hf
      subst hf
      exact htT ▸ hlt
  · constructor
    · intro hfit
      rw [hex] at hfit
      exact absurd hfit (by simp)
    · intro _ f hf
      rw [hevs, evalFits_append, evalFits_base] at hf
      simp [evalFits] at hf

theorem trainAux_fitness_first (cfg : GenConfig) (oracle : Nat → (Nat → Nat) × Rat)
    (T : Rat) (hT : cfg.stopFit = some T) :
    ∀ (fuel gen ts : Nat) (lastLog : Int) (tr : List (Nat × List Ev)) (ek : ExitKind),
      trainAux cfg oracle fuel gen ts lastLog = .ok (tr, ek) →
      ((ek = .fitnessStop → ∃ last, tr.getLast? = some last ∧
        (∃ f ∈ evalFits last.2, T ≤ f) ∧
        ∀ e ∈ tr.dropLast, ∀ f ∈ evalFits e.2, f < T) ∧
      (ek ≠ .fitnessStop → ∀ e ∈ tr, ∀ f ∈ evalFits e.2, f < T)) := by
  intro fuel
  induction fuel with
  | zero =>
    intro gen ts ll tr ek h
    simp only [trainAux, Except.ok.injEq, Prod.mk.injEq] at h
    obtain ⟨htr, hek⟩ := h
    subst htr
    subst hek
    constructor
    · intro hek2
      exact absurd hek2 (by simp)
    · intro _ e he
      simp at he
  | succ fuel ih =>
    intro gen ts ll tr ek h
    simp only [trainAux] at h
    cases hg : genStep cfg gen (oracle gen).1 (oracle gen).2 ts ll with
    | error e =>
      rw [hg] at h
      exact absurd h (by simp)
    | ok out =>
      obtain ⟨ts2, ll2, ex, evs⟩ := out
      rw [hg] at h
      have hfits := genStep_fits cfg T hT gen (oracle gen).1 (oracle gen).2 ts ll
        ts2 ll2 ex evs hg
      cases ex with
      | fitnessStop =>
        simp only [Except.ok.injEq, Prod.mk.injEq] at h
        obtain ⟨htr, hek⟩ := h
        subst htr
        subst hek
        constructor
        · intro _
          obtain ⟨f, hf, hTf⟩ := hfits.1 rfl
          refine ⟨(gen, evs), by simp, ⟨f, ?_, hTf⟩, by simp⟩
          rw [hf]
          simp
        · intro hne
          exact absurd rfl hne
      | budgetStop =>
        simp only [Except.ok.injEq, Prod.mk.injEq] at h
        obtain ⟨htr, hek⟩ := h
        subst htr
        subst hek
        constructor
        · intro hek2
          exact absurd hek2 (by simp)
        · intro _ e he f hf
          simp only [List.mem_singleton] at he
          subst he
          exact hfits.2 (by simp) f hf
      | cont =>
        dsimp only at h
        cases hrec : trainAux cfg oracle fuel (gen + 1) ts2 ll2 with
        | error e =>
          rw [hrec] at h
          exact absurd h (by simp)
        | ok pr =>
          obtain ⟨tr2, ek2⟩ := pr
          rw [hrec] at h
          simp only [Except.ok.injEq, Prod.mk.injEq] at h
          obtain ⟨htr, hek⟩ := h
          subst htr
          subst hek
          obtain ⟨ih1, ih2⟩ := ih (gen + 1) ts2 ll2 tr2 ek2 hrec
          have hcur : ∀ f ∈ evalFits evs, f < T := hfits.2 (by simp)
          constructor
          · intro hek2
            obtain ⟨last, hlast, hqual, hprev⟩ := ih1 hek2
            have htr2ne : tr2 ≠ [] := by
              rintro rfl
              simp at hlast
            obtain ⟨b, l', rfl⟩ := List.exists_cons_of_ne_nil htr2ne
            refine ⟨last, ?_, hqual, ?_⟩
            · rw [List.getLast?_cons_cons]
              exact hlast
            · intro e he f hf
              rw [List.dropLast_cons₂] at he
              rcases List.mem_cons.mp he with rfl | he'
              · exact hcur f hf
              · exact hprev e he' f hf
          · intro hek2 e he f hf
            rcases List.mem_cons.mp he with rfl | he'
            · exact hcur f hf
            · exact ih2 hek2 e he' f hf

/-- Claim C4: with a stop-fitness threshold T configured, the generation loop
terminates the run with the fitness stop exactly at the first periodic
evaluation whose mean test fitness reaches T: if the run exits with the
fitness stop, the final generation's evaluation reached T while every
evaluation of every earlier generation stayed below T; and if the run exits
any other way, no evaluation of the run ever reached T — so the fitness stop
never fires between evaluations or at an evaluation below the threshold. -/
theorem fitness_stop_first (cfg : GenConfig) (oracle : Nat → (Nat → Nat) × Rat)
    (T : Rat) (hT : cfg.stopFit = some T) (tr : List (Nat × List Ev)) (ek : ExitKind)
    (h : train cfg oracle = .ok (tr, ek)) :
    (ek = .fitnessStop → ∃ last, tr.getLast? = some last ∧
      (∃ f ∈ evalFits last.2, T ≤ f) ∧
      ∀ e ∈ tr.dropLast, ∀ f ∈ evalFits e.2, f < T) ∧
    (ek ≠ .fitnessStop → ∀ e ∈ tr, ∀ f ∈ evalFits e.2, f < T) :=
  trainAux_fitness_first cfg oracle T hT 10000 0 0 (-9999999) tr ek h

/-- Witness for claim C4: a run whose first generation evaluates with mean
test fitness 1000 against threshold 500 exits with the fitness stop at that
very generation. -/
theorem fitness_stop_first_witness :
    ((ExitKind.fitnessStop = ExitKind.fitnessStop → ∃ last,
      [((0 : Nat), [Ev.runEpisode 0, Ev.updateEvoAC, Ev.evalTest 1000, Ev.logFit,
        Ev.printData])].getLast? = some last ∧
      (∃ f ∈ evalFits last.2, (500 : Rat) ≤ f) ∧
      ∀ e ∈ [((0 : Nat), [Ev.runEpisode 0, Ev.updateEvoAC, Ev.evalTest 1000,
        Ev.logFit, Ev.printData])].dropLast, ∀ f ∈ evalFits e.2, f < 500) ∧
    (ExitKind.fitnessStop ≠ ExitKind.fitnessStop →
      ∀ e ∈ [((0 : Nat), [Ev.runEpisode 0, Ev.updateEvoAC, Ev.evalTest 1000,
        Ev.logFit, Ev.printData])], ∀ f ∈ evalFits e.2, f < 500)) :=
  fitness_stop_first ⟨1, 1, 3, 1, some 500⟩ (fun _ => (fun _ => 5, 1000)) 500 rfl
    [(0, [Ev.runEpisode 0, Ev.updateEvoAC, Ev.evalTest 1000, Ev.logFit,
      Ev.printData])] .fitnessStop (by rfl)

/-! ### Missing stop threshold (claim C10) -/

theorem genStep_noStop_error (cfg : GenConfig) (hn : cfg.stopFit = none)
    (gen : Nat) (stepsOf : Nat → Nat) (testFit : Rat) (ts : Nat) (lastLog : Int)
    (hc : evalCond cfg (ts + stepSum cfg.popSize stepsOf) lastLog) :
    genStep cfg gen stepsOf testFit ts lastLog = .error attrErr := by
  simp only [genStep]
  rw [if_pos hc, hn]

theorem trainAux_noStop (cfg : GenConfig) (oracle : Nat → (Nat → Nat) × Rat)
    (hn : cfg.stopFit = none) :
    ∀ (fuel gen ts : Nat) (lastLog : Int),
      trainAux cfg oracle fuel gen ts lastLog = .error attrErr ∨
      ∃ tr, trainAux cfg oracle fuel gen ts lastLog = .ok (tr, .ceiling) ∧
        ∀ e ∈ tr, evalFits e.2 = [] := by
  intro fuel
  induction fuel with
  | zero =>
    intro gen ts ll
    exact Or.inr ⟨[], rfl, by simp⟩
  | succ fuel ih =>
    intro gen ts ll
    cases hg : genStep cfg gen (oracle gen).1 (oracle gen).2 ts ll with
    | error e =>
      left
      have he := genStep_error_eq cfg gen (oracle gen).1 (oracle gen).2 ts ll e hg
      subst he
      simp only [trainAux, hg]
    | ok out =>
      obtain ⟨ts2, ll2, ex, evs⟩ := out
      rcases genStep_cases cfg gen (oracle gen).1 (oracle gen).2 ts ll
          ts2 ll2 ex evs hg with
        ⟨-, -, tf, htf, -⟩ | ⟨-, -, tf, htf, -⟩ | ⟨hex, hevs, -⟩
      · rw [hn] at htf
        exact absurd htf (by simp)
      · rw [hn] at htf
        exact absurd htf (by simp)
      · subst hex
        rcases ih (gen + 1) ts2 ll2 with herr | ⟨tr, htr, hall⟩
        · left
          simp only [trainAux, hg, herr]
        · right
          refine ⟨(gen, evs) :: tr, ?_, ?_⟩
          · simp only [trainAux, hg, htr]
          · intro e he
            rcases List.mem_cons.mp he with rfl | he'
            · rw [hevs, evalFits_append, evalFits_base]
              simp [evalFits]
            · exact hall e he'

/-- Claim C10: for every configured environment identifier other than
CartPole-v1 and LunarLander-v2, the runner is constructed successfully — the
identifier is only handed to the external environment collaborator, with no
startup rejection by the runner — and with no stop-fitness threshold set at
all (stop_fit is never assigned; there is no default). The stop check of the
first triggered periodic evaluation then reads the missing attribute and
aborts with the attribute error: a run either fails with that error at its
first triggered evaluation, or exhausts the generation ceiling without any
evaluation ever having triggered. -/
theorem missing_stop_fit (config : Config)
    (h1 : config.exp.env ≠ cartPoleId) (h2 : config.exp.env ≠ lunarLanderId) :
    ∃ r, runnerInit config = .ok r ∧ r.stopFit = none ∧
      (∀ (gen : Nat) (stepsOf : Nat → Nat) (testFit : Rat) (ts : Nat) (lastLog : Int),
        evalCond (runnerGenConfig r) (ts + stepSum (runnerGenConfig r).popSize stepsOf)
          lastLog →
        genStep (runnerGenConfig r) gen stepsOf testFit ts lastLog = .error attrErr) ∧
      (∀ oracle, train (runnerGenConfig r) oracle = .error attrErr ∨
        ∃ tr, train (runnerGenConfig r) oracle = .ok (tr, .ceiling) ∧
          ∀ e ∈ tr, evalFits e.2 = []) := by
  have hsf : initStopFit config.exp.env = none := by
    rw [initStopFit, if_neg h1, if_neg h2]
  refine ⟨_, rfl, hsf, ?_, ?_⟩
  · intro gen stepsOf testFit ts ll hc
    exact genStep_noStop_error _ hsf gen stepsOf testFit ts ll hc
  · intro oracle
    exact trainAux_noStop _ oracle hsf 10000 0 0 (-9999999)

/-- Witness for claim C10: instantiated at the Acrobot-v1 environment. -/
theorem missing_stop_fit_witness :
    ∃ r, runnerInit acrobotConfig = .ok r ∧ r.stopFit = none ∧
      (∀ (gen : Nat) (stepsOf : Nat → Nat) (testFit : Rat) (ts : Nat) (lastLog : Int),
        evalCond (runnerGenConfig r) (ts + stepSum (runnerGenConfig r).popSize stepsOf)
          lastLog →
        genStep (runnerGenConfig r) gen stepsOf testFit ts lastLog = .error attrErr) ∧
      (∀ oracle, train (runnerGenConfig r) oracle = .error attrErr ∨
        ∃ tr, train (runnerGenConfig r) oracle = .ok (tr, .ceiling) ∧
          ∀ e ∈ tr, evalFits e.2 = []) :=
  missing_stop_fit acrobotConfig (by decide) (by decide)

/-! ### Unsupported test strategy (claim C8) -/

/-- Claim C8 counterexample: with the unsupported test-strategy identifier
"argmax", runner construction succeeds — startup never reads the identifier,
so the configuration failure the claim requires at startup does not occur. -/
theorem unknown_strategy_passes_init :
    (∃ r, runnerInit unknownStratConfig = .ok r) ∧
    unknownStratConfig.exp.testStrat ≠ bestStrat ∧
    unknownStratConfig.exp.testStrat ≠ softmaxStrat ∧
    unknownStratConfig.exp.testStrat ≠ weightedVoteStrat :=
  ⟨⟨_, rfl⟩, by decide, by decide, by decide⟩

/-- Claim C8 (amended): an unsupported test-strategy identifier is not
rejected at startup — runner construction succeeds without inspecting it —
and the failure surfaces only at evaluation time: every test-action
selection under that strategy falls through the if/elif chain and raises the
unbound-local error. -/
theorem unknown_strategy_late_failure (config : Config)
    (h1 : config.exp.testStrat ≠ bestStrat)
    (h2 : config.exp.testStrat ≠ softmaxStrat)
    (h3 : config.exp.testStrat ≠ weightedVoteStrat) :
    (∃ r, runnerInit config = .ok r) ∧
    ∀ (e : Rat → Rat) (numActions : Nat) (fitnesses : List Rat)
      (logitsPerInd : List (List Rat)) (us : List Rat) (uChoice : Rat),
      getTestAction e config.exp.testStrat numActions fitnesses logitsPerInd us uChoice
        = .error unboundLocalErr := by
  refine ⟨⟨_, rfl⟩, ?_⟩
  intro e n fits lpi us uc
  rw [getTestAction, if_neg h1, if_neg h2, if_neg h3]

/-- Witness for the amended claim C8: instantiated at the concrete
configuration whose test strategy is "argmax". -/
theorem unknown_strategy_late_failure_witness :
    (∃ r, runnerInit unknownStratConfig = .ok r) ∧
    ∀ (e : Rat → Rat) (numActions : Nat) (fitnesses : List Rat)
      (logitsPerInd : List (List Rat)) (us : List Rat) (uChoice : Rat),
      getTestAction e unknownStratConfig.exp.testStrat numActions fitnesses
        logitsPerInd us uChoice = .error unboundLocalErr :=
  unknown_strategy_late_failure unknownStratConfig (by decide) (by decide) (by decide)

end EARL
